import Mathlib

/-!
Shallow embedding of the Trend Projection & Eligibility Engine of the
Express Entry score tracker (the in-page script generated by the build step).
JavaScript numbers are modelled as exact rationals, integer quantities as
`Int`/`Nat`, timestamps as epoch milliseconds, and the environment timezone is
fixed to UTC (the source uses local-time calendar arithmetic).
-/

namespace EE

/-- JavaScript `Math.round`: round half toward positive infinity. -/
def jsRound (q : ℚ) : ℤ := ⌊q + 1/2⌋

/-- A regression input point: numeric timestamp `x` and value `y`. -/
structure QPt where
  x : ℚ
  y : ℚ
deriving DecidableEq

def sumX (pts : List QPt) : ℚ := (pts.map QPt.x).sum
def sumY (pts : List QPt) : ℚ := (pts.map QPt.y).sum
def sumXY (pts : List QPt) : ℚ := (pts.map (fun p => p.x * p.y)).sum
def sumXX (pts : List QPt) : ℚ := (pts.map (fun p => p.x * p.x)).sum

/-- The normal-equation determinant `n*sxx - sx*sx` of `linearRegression`. -/
def detLin (pts : List QPt) : ℚ :=
  (pts.length : ℚ) * sumXX pts - sumX pts * sumX pts

/-- The `1e-10` degeneracy threshold of `linearRegression`. -/
def eps10 : ℚ := 1 / 10000000000

/-- The `1e-20` degeneracy threshold of `polyRegression`. -/
def eps20 : ℚ := 1 / 100000000000000000000

structure LinModel where
  slope : ℚ
  intercept : ℚ
deriving DecidableEq

def LinModel.evalAt (m : LinModel) (x : ℚ) : ℚ := m.slope * x + m.intercept

/-- `linearRegression(pts)` from the source: ordinary least squares; `none` when
fewer than 2 points or the determinant is below `1e-10` in absolute value. -/
def linearRegression (pts : List QPt) : Option LinModel :=
  if pts.length < 2 then none
  else
    let d := detLin pts
    if |d| < eps10 then none
    else
      let slope := ((pts.length : ℚ) * sumXY pts - sumX pts * sumY pts) / d
      let intercept := (sumY pts - slope * sumX pts) / (pts.length : ℚ)
      some ⟨slope, intercept⟩

/-- A fitted regression model: either the linear evaluator or the normalized
quadratic evaluator of `polyRegression`. -/
inductive RegModel where
  | lin (slope intercept : ℚ)
  | quad (a b c xMin xRange : ℚ)
deriving DecidableEq

def RegModel.evalAt : RegModel → ℚ → ℚ
  | .lin s i, x => s * x + i
  | .quad a b c xMin xRange, x =>
      let xn := (x - xMin) / xRange
      a * xn * xn + b * xn + c

def RegModel.ofLin (m : LinModel) : RegModel := .lin m.slope m.intercept

/-- 3x3 determinant, row major, as the source's `det3`. -/
def det3 (a11 a12 a13 a21 a22 a23 a31 a32 a33 : ℚ) : ℚ :=
  a11 * (a22 * a33 - a23 * a32)
    - a12 * (a21 * a33 - a23 * a31)
    + a13 * (a21 * a32 - a22 * a31)

/-- `polyRegression(pts)` from the source: quadratic least squares over x
normalized by the first/last point, with fallback to `linearRegression` when
fewer than 4 points or the system determinant is below `1e-20`. -/
def polyRegression (pts : List QPt) : Option RegModel :=
  if pts.length < 4 then (linearRegression pts).map RegModel.ofLin
  else
    let xMin := (pts.headD ⟨0, 0⟩).x
    let r0 := (pts.getLastD ⟨0, 0⟩).x - xMin
    let xRange := if r0 = 0 then 1 else r0
    let norm := pts.map (fun p => QPt.mk ((p.x - xMin) / xRange) p.y)
    let s0 : ℚ := (pts.length : ℚ)
    let s1 := (norm.map (fun p => p.x)).sum
    let s2 := (norm.map (fun p => p.x * p.x)).sum
    let s3 := (norm.map (fun p => p.x * p.x * p.x)).sum
    let s4 := (norm.map (fun p => p.x * p.x * (p.x * p.x))).sum
    let t0 := (norm.map (fun p => p.y)).sum
    let t1 := (norm.map (fun p => p.x * p.y)).sum
    let t2 := (norm.map (fun p => p.x * p.x * p.y)).sum
    let D := det3 s0 s1 s2 s1 s2 s3 s2 s3 s4
    if |D| < eps20 then (linearRegression pts).map RegModel.ofLin
    else
      let c := det3 t0 s1 s2 t1 s2 s3 t2 s3 s4 / D
      let b := det3 s0 t0 s2 s1 t1 s3 s2 t2 s4 / D
      let a := det3 s0 s1 t0 s1 s2 t1 s2 s3 t2 / D
      some (.quad a b c xMin xRange)

/-! ### Stable sorting

JavaScript's `Array.prototype.sort` is stable; with the comparator
`(a, b) => key(a) - key(b)` it produces the unique stable ascending ordering by
`key`. `sortByKey` is that ordering, realized as a stable insertion sort. -/

def insKey (key : α → ℤ) (a : α) : List α → List α
  | [] => [a]
  | b :: l => if key b < key a then b :: insKey key a l else a :: b :: l

def sortByKey (key : α → ℤ) : List α → List α
  | [] => []
  | a :: l => insKey key a (sortByKey key l)

/-! ### Calendar arithmetic

`setMonth(getMonth() + 6)` on a JavaScript `Date`, i.e. adding six calendar
months with day-of-month overflow rolling into the following month, acting on
epoch milliseconds with the timezone fixed to UTC. The civil-calendar
conversions are the standard era-based Gregorian algorithms. -/

def civilFromDays (z : ℤ) : ℤ × ℤ × ℤ :=
  let z' := z + 719468
  let era := z'.fdiv 146097
  let doe := z' - era * 146097
  let yoe := (doe - doe.fdiv 1460 + doe.fdiv 36524 - doe.fdiv 146096).fdiv 365
  let y' := yoe + era * 400
  let doy := doe - (365 * yoe + yoe.fdiv 4 - yoe.fdiv 100)
  let mp := (5 * doy + 2).fdiv 153
  let d := doy - (153 * mp + 2).fdiv 5 + 1
  let m := mp + (if mp < 10 then 3 else -9)
  (y' + (if m ≤ 2 then 1 else 0), m, d)

def daysFromCivil (y m d : ℤ) : ℤ :=
  let y' := y - (if m ≤ 2 then 1 else 0)
  let era := y'.fdiv 400
  let yoe := y' - era * 400
  let mp := m + (if 2 < m then -3 else 9)
  let doy := (153 * mp + 2).fdiv 5 + d - 1
  let doe := yoe * 365 + yoe.fdiv 4 - yoe.fdiv 100 + doy
  era * 146097 + doe - 719468

def dayMs : ℤ := 86400000

/-- `d = new Date(ms); d.setMonth(d.getMonth() + PROJECTION_MONTHS)` with
`PROJECTION_MONTHS = 6`, preserving the time of day. -/
def addMonths6 (ms : ℤ) : ℤ :=
  let day := ms.fdiv dayMs
  let rem := ms - day * dayMs
  match civilFromDays day with
  | (y, m, d) =>
    let m0 := m - 1 + 6
    let y2 := y + m0.fdiv 12
    let m2 := m0.emod 12 + 1
    daysFromCivil y2 m2 d * dayMs + rem

/-! ### Distribution snapshots -/

/-- Candidate counts per CRS score band: the fixed 15 bands of the data feed. -/
structure Dist where
  r601_1200 : ℕ
  r501_600 : ℕ
  r491_500 : ℕ
  r481_490 : ℕ
  r471_480 : ℕ
  r461_470 : ℕ
  r451_460 : ℕ
  r441_450 : ℕ
  r431_440 : ℕ
  r421_430 : ℕ
  r411_420 : ℕ
  r401_410 : ℕ
  r351_400 : ℕ
  r301_350 : ℕ
  r0_300 : ℕ
deriving DecidableEq

/-- One score band: lower bound, upper bound, candidate count. -/
structure Band where
  lo : ℤ
  hi : ℤ
  count : ℕ
deriving DecidableEq

/-- The `ranges` table of `countAboveScore`, highest band first, with each
band's upper bound derived as in the source (next band's lower bound minus one,
and 1200 for the open-ended top band). -/
def bandList (d : Dist) : List Band :=
  [⟨601, 1200, d.r601_1200⟩, ⟨501, 600, d.r501_600⟩, ⟨491, 500, d.r491_500⟩,
   ⟨481, 490, d.r481_490⟩, ⟨471, 480, d.r471_480⟩, ⟨461, 470, d.r461_470⟩,
   ⟨451, 460, d.r451_460⟩, ⟨441, 450, d.r441_450⟩, ⟨431, 440, d.r431_440⟩,
   ⟨421, 430, d.r421_430⟩, ⟨411, 420, d.r411_420⟩, ⟨401, 410, d.r401_410⟩,
   ⟨351, 400, d.r351_400⟩, ⟨301, 350, d.r301_350⟩, ⟨0, 300, d.r0_300⟩]

/-- The loop body of `countAboveScore`: bands are walked from highest to
lowest; a band fully at or above the cutoff adds its whole count; the first
band containing the cutoff adds `Math.round(count * ((hi - cutoff + 1) / span))`
and the walk breaks; a band entirely below the cutoff adds nothing and the walk
breaks. -/
def walkBands : List Band → ℤ → ℤ
  | [], _ => 0
  | b :: rest, cutoff =>
    if cutoff ≤ b.lo then (b.count : ℤ) + walkBands rest cutoff
    else if cutoff ≤ b.hi then
      jsRound ((b.count : ℚ) *
        (((b.hi : ℚ) - (cutoff : ℚ) + 1) / ((b.hi : ℚ) - (b.lo : ℚ) + 1)))
    else 0

/-- A deduplicated pool-distribution snapshot as stored in
`distributionSnapshots`. -/
structure Snap where
  dateMs : ℤ
  ranges : Dist
  total : ℤ
deriving DecidableEq

/-- `countAboveScore(dist, cutoffScore)` from the source. -/
def countAboveScore (s : Snap) (cutoff : ℤ) : ℤ :=
  walkBands (bandList s.ranges) cutoff

/-- Sum of all band counts of a snapshot. -/
def sumBandCounts (s : Snap) : ℤ :=
  ((bandList s.ranges).map (fun b => (b.count : ℤ))).sum

/-- The scan of `findClosestDist`: keep the first snapshot attaining the
minimum absolute date distance. -/
def closestLoop (dateMs : ℤ) : List Snap → Option Snap → Option Snap
  | [], best => best
  | s :: rest, best =>
    match best with
    | none => closestLoop dateMs rest (some s)
    | some b =>
      if |s.dateMs - dateMs| < |b.dateMs - dateMs| then
        closestLoop dateMs rest (some s)
      else closestLoop dateMs rest (some b)

/-- `findClosestDist(dateMs)` from the source: nearest snapshot by date, `none`
if it is more than 30 days away. -/
def findClosestDist (snaps : List Snap) (dateMs : ℤ) : Option Snap :=
  match closestLoop dateMs snaps none with
  | none => none
  | some b => if 30 * dayMs < |b.dateMs - dateMs| then none else some b

/-! ### Projection Builder -/

/-- A chart data point of a category series: date (epoch ms, UTC midnight),
CRS cutoff score, invitations issued. The presentation-only fields
(`roundNumber`, `roundType`) are not modelled. -/
structure DataPt where
  x : ℤ
  y : ℤ
  invitations : ℤ
deriving DecidableEq

def toQPt (d : DataPt) : QPt := ⟨(d.x : ℚ), (d.y : ℚ)⟩

/-- An emitted projection point. `x` is the date in epoch ms; forecast dates
are truncated to the UTC day boundary, as the source renders
`toISOString().split('T')[0]`. -/
structure ProjPoint where
  x : ℤ
  y : ℤ
  isForecast : Bool
deriving DecidableEq

/-- Truncate an (exact) ms instant to its UTC day boundary in ms. -/
def msToDayMs (t : ℚ) : ℤ := ⌊t / (dayMs : ℚ)⌋ * dayMs

def MOVING_AVG_WINDOW : ℕ := 6

/-- The 41 grid instants `firstT + (projEndT - firstT) * i / 40`,
`i = 0..40`, of `regressionProjection` (`totalSteps = 40`). -/
def projGridTimes (firstT projEndT : ℚ) : List ℚ :=
  (List.range 41).map
    (fun i : ℕ => firstT + (projEndT - firstT) * ((i : ℚ) / 40))

/-- `regressionProjection(filtered, …, regFn, …)` from the source, keeping the
emitted data points (chart styling dropped): sort by date, fit `regFn`, then
emit one point per grid instant, clamped to `max(0, round(eval(t)))` and tagged
as forecast when the instant lies after the last observed date. -/
def regressionProjection (filtered : List DataPt)
    (regFn : List QPt → Option RegModel) : Option (List ProjPoint) :=
  if filtered.length < 3 then none
  else
    let sorted := sortByKey DataPt.x filtered
    let pts := sorted.map toQPt
    match regFn pts with
    | none => none
    | some reg =>
      let firstTi := (sorted.headD ⟨0, 0, 0⟩).x
      let lastTi := (sorted.getLastD ⟨0, 0, 0⟩).x
      let projEndTi := addMonths6 lastTi
      some ((projGridTimes (firstTi : ℚ) (projEndTi : ℚ)).map (fun t =>
        ⟨msToDayMs t, max 0 (jsRound (reg.evalAt t)), decide ((lastTi : ℚ) < t)⟩))

/-- The trailing moving-average series used by `movingAvgProjection`: one point
per index `i ≥ 5` of the sorted series, y rounded as rendered. -/
def smoothedRounded (sorted : List DataPt) : List (ℤ × ℤ) :=
  (List.range (sorted.length - 5)).map (fun k =>
    let i := k + 5
    ((sorted.getD i ⟨0, 0, 0⟩).x,
     jsRound ((((List.range 6).map
        (fun j => ((sorted.getD (i - j) ⟨0, 0, 0⟩).y : ℚ))).sum) / 6)))

/-- `movingAvgProjection(filtered, …)` from the source, keeping the emitted
data points: the rounded trailing-average overlay plus, when at least two
smoothed points exist and the 3-point-tail linear fit succeeds, 12 forward
points spanning six months past the last smoothed date. -/
def movingAvgProjection (filtered : List DataPt) : Option (List ProjPoint) :=
  if filtered.length < MOVING_AVG_WINDOW then none
  else
    let sorted := sortByKey DataPt.x filtered
    let smoothed := smoothedRounded sorted
    let overlay : List ProjPoint := smoothed.map (fun p => ⟨p.1, p.2, false⟩)
    if smoothed.length < 2 then some overlay
    else
      let tail := smoothed.drop (smoothed.length - 3)
      let tpts := tail.map (fun p => QPt.mk (p.1 : ℚ) (p.2 : ℚ))
      match linearRegression tpts with
      | none => some overlay
      | some reg =>
        let lastDate := (smoothed.getLastD (0, 0)).1
        let endT := addMonths6 lastDate
        let fore := (List.range 12).map (fun i0 : ℕ =>
          let t : ℚ := (lastDate : ℚ) +
            ((endT : ℚ) - (lastDate : ℚ)) * (((i0 : ℚ) + 1) / 12)
          ProjPoint.mk (msToDayMs t) (max 0 (jsRound (reg.evalAt t))) true)
        some (overlay ++ fore)

/-- The projection mode selected in the UI. -/
inductive PMode where
  | off
  | linear
  | movingAvg
  | poly
deriving DecidableEq

/-- The Projection Builder: the per-category projection dataset built by
`buildDatasets` for a mode (which skips any series of fewer than 3 points). -/
def projBuilder (mode : PMode) (filtered : List DataPt) :
    Option (List ProjPoint) :=
  match mode with
  | .off => none
  | .linear =>
      if filtered.length < 3 then none
      else regressionProjection filtered
        (fun pts => (linearRegression pts).map RegModel.ofLin)
  | .movingAvg =>
      if filtered.length < 3 then none else movingAvgProjection filtered
  | .poly =>
      if filtered.length < 3 then none
      else regressionProjection filtered polyRegression

/-! ### Weekly crossing search -/

/-- The body of `for (t = lastT; t <= maxT; t += step)`: test `f t ≤ c` at
`t`, advance by `step`, with the iteration count as fuel. -/
def searchLoop (f : ℚ → ℚ) (c : ℚ) (stepq : ℚ) : ℚ → ℕ → Option ℚ
  | _, 0 => none
  | t, n + 1 => if f t ≤ c then some t else searchLoop f c stepq (t + stepq) n

/-- Number of loop iterations of the search: the loop visits
`t = lastT + k*step` exactly while `k*step ≤ horizon`, i.e.
`k = 0 .. ⌊horizon/step⌋`. -/
def numSearchSteps (stepMs horizonMs : ℚ) : ℕ :=
  ⌊horizonMs / stepMs⌋.toNat + 1

/-- The forward crossing search shared in shape by both code sites: first
visited instant with `f t ≤ c`, or `none` within the horizon. -/
def searchFirst (stepMs horizonMs : ℚ) (f : ℚ → ℚ) (lastT c : ℚ) : Option ℚ :=
  searchLoop f c stepMs lastT (numSearchSteps stepMs horizonMs)

/-- Weekly step of the trend-crossing search (`7 * 24 * 60 * 60 * 1000`). -/
def trendStepMs : ℚ := 7 * 24 * 60 * 60 * 1000

/-- Horizon of the trend-crossing search (`3 * 365.25 * 24 * 60 * 60 * 1000`;
`365.25 = 1461/4` exactly). -/
def trendHorizonMs : ℚ := 3 * (1461 / 4) * 24 * 60 * 60 * 1000

/-- Weekly step of the pool-aware crossing search. -/
def poolStepMs : ℚ := 7 * 24 * 60 * 60 * 1000

/-- Horizon of the pool-aware crossing search. -/
def poolHorizonMs : ℚ := 3 * (1461 / 4) * 24 * 60 * 60 * 1000

/-! ### Pool-Aware Crossing Model -/

/-- The per-round competition-ratio series of `getPoolAwareProjection`: one
point per round with positive invitations and a distribution snapshot within
30 days of the round date. -/
def ratioSeriesOf (sorted : List DataPt) (snaps : List Snap) : List QPt :=
  sorted.filterMap (fun d =>
    (if d.invitations ≤ (0 : ℤ) then none
     else
      match findClosestDist snaps d.x with
      | none => none
      | some dist =>
          some (QPt.mk (d.x : ℚ)
            (((countAboveScore dist d.y : ℤ) : ℚ) /
              ((d.invitations : ℤ) : ℚ))) : Option QPt))

/-- The positive invitation counts of the last 10 rounds, sorted ascending. -/
def recentInvitationsOf (sorted : List DataPt) : List ℤ :=
  sortByKey id
    (((sorted.drop (sorted.length - 10)).map DataPt.invitations).filter
      (fun n => decide (0 < n)))

/-- `recentInvitations[Math.floor(length / 2)]`: the source's median of the
recent positive invitation counts; `none` when there are none. -/
def medianInvOf (sorted : List DataPt) : Option ℤ :=
  let ri := recentInvitationsOf sorted
  if ri.isEmpty then none else some (ri.getD (ri.length / 2) 0)

/-- The user's competition-ratio series: one point per distribution snapshot. -/
def userRatioSeriesOf (snaps : List Snap) (userScore medianInv : ℤ) :
    List QPt :=
  snaps.map (fun s =>
    QPt.mk (s.dateMs : ℚ) ((countAboveScore s userScore : ℚ) / (medianInv : ℚ)))

/-- The regression selection on the user-ratio series inside
`getPoolAwareProjection`: mode `poly` uses `polyRegression`; mode `moving-avg`
uses the 3-point tail of the trailing average when at least
`MOVING_AVG_WINDOW` ratio points exist, and otherwise stays with
`linearRegression`; every other mode uses `linearRegression`. -/
def poolRegFn (mode : PMode) (urs : List QPt) : Option RegModel :=
  if mode = .movingAvg ∧ MOVING_AVG_WINDOW ≤ urs.length then
    let smoothed := (List.range (urs.length - 5)).map (fun k =>
      let i := k + 5
      QPt.mk (urs.getD i ⟨0, 0⟩).x
        ((((List.range 6).map (fun j => (urs.getD (i - j) ⟨0, 0⟩).y)).sum) / 6))
    let tail := smoothed.drop (smoothed.length - 3)
    (linearRegression tail).map RegModel.ofLin
  else if mode = .poly then polyRegression urs
  else (linearRegression urs).map RegModel.ofLin

/-- `getPoolAwareProjection(sorted, userScore, …)` from the source, returning
the crossing instant (epoch ms) when one is found. -/
def getPoolAwareProjection (sorted : List DataPt) (userScore : ℤ)
    (mode : PMode) (snaps : List Snap) : Option ℚ :=
  let ratioSeries := ratioSeriesOf sorted snaps
  if ratioSeries.length < 3 then none
  else
    match snaps.getLast? with
    | none => none
    | some latestDist =>
      let userAbove := countAboveScore latestDist userScore
      match medianInvOf sorted with
      | none => none
      | some medianInv =>
        let userRatio : ℚ := (userAbove : ℚ) / (medianInv : ℚ)
        if userRatio ≤ 1 then none
        else
          let urs := userRatioSeriesOf snaps userScore medianInv
          if urs.length < 2 then none
          else
            match poolRegFn mode urs with
            | none => none
            | some reg =>
              match urs.getLast? with
              | none => none
              | some lastP =>
                  searchFirst poolStepMs poolHorizonMs reg.evalAt lastP.x 1

/-- The plain trend-crossing fallback inside `getProjectedCrossing`: fit the
mode's regression on the `(date, score)` points (3-point smoothed tail for
moving average) and search weekly for the first projected value at or below
the user's score. `none` on an empty series, where the source would fault;
its callers guarantee at least 2 points. -/
def trendCrossing (sorted : List DataPt) (score : ℤ) (mode : PMode) :
    Option ℚ :=
  let pts := sorted.map toQPt
  let regOpt : Option RegModel :=
    if mode = .movingAvg then
      if sorted.length < MOVING_AVG_WINDOW then none
      else
        let smoothed := (List.range (sorted.length - 5)).map (fun k =>
          let i := k + 5
          QPt.mk ((sorted.getD i ⟨0, 0, 0⟩).x : ℚ)
            ((((List.range 6).map
                (fun j => ((sorted.getD (i - j) ⟨0, 0, 0⟩).y : ℚ))).sum) / 6))
        let tail := smoothed.drop (smoothed.length - 3)
        (linearRegression tail).map RegModel.ofLin
    else if mode = .poly then polyRegression pts
    else (linearRegression pts).map RegModel.ofLin
  match regOpt with
  | none => none
  | some reg =>
    match pts.getLast? with
    | none => none
    | some lastP =>
        searchFirst trendStepMs trendHorizonMs reg.evalAt lastP.x (score : ℚ)

/-- A crossing result: instant (epoch ms) and whether it came from the
pool-aware model (the `' *'` marker of the source). -/
structure Crossing where
  t : ℚ
  poolAware : Bool
deriving DecidableEq

/-- `getProjectedCrossing(sorted, score, …)` from the source: try the
pool-aware model when at least 3 snapshots exist, and on any `null` from it
fall back to the plain trend-crossing search. -/
def getProjectedCrossing (sorted : List DataPt) (score : ℤ) (mode : PMode)
    (snaps : List Snap) : Option Crossing :=
  let pool :=
    if 3 ≤ snaps.length then getPoolAwareProjection sorted score mode snaps
    else none
  match pool with
  | some t => some ⟨t, true⟩
  | none => (trendCrossing sorted score mode).map (fun t => ⟨t, false⟩)

/-! ### Eligibility Resolver -/

/-- An eligibility verdict as rendered by `buildScoreResults`. -/
inductive Verdict where
  | eligible (pastRounds : ℕ)
  | projected (t : ℚ) (poolAware : Bool)
  | lastEligible (dateMs : ℤ)
  | ineligible
deriving DecidableEq

/-- One category's evaluation inside `buildScoreResults`: `none` means the
category is skipped and no card is rendered (the source's early `return` for a
filtered series of fewer than 2 points). -/
def verdictFor (filtered : List DataPt) (score : ℤ) (mode : PMode)
    (snaps : List Snap) : Option Verdict :=
  if filtered.length < 2 then none
  else
    let sorted := sortByKey DataPt.x filtered
    let eligible := sorted.filter (fun d => decide (d.y ≤ score))
    match sorted.getLast? with
    | none => none
    | some mostRecent =>
      let currentlyEligible := mostRecent.y ≤ score
      let projected : Option Crossing :=
        if mode ≠ .off ∧ ¬ currentlyEligible then
          getProjectedCrossing sorted score mode snaps
        else none
      if currentlyEligible then some (.eligible eligible.length)
      else
        match projected with
        | some cr => some (.projected cr.t cr.poolAware)
        | none =>
          match eligible.getLast? with
          | some le => some (.lastEligible le.x)
          | none => some .ineligible

/-! ### Distribution Index construction (`main`, dedup of `distSnapshots`) -/

/-- A raw round's attached distribution: `asOf` is the snapshot's `asOfDate`
(`none` models a missing or empty string, for which the source falls back to
the round date as dedup key). -/
structure SnapData where
  asOf : Option ℤ
  ranges : Dist
  total : ℤ
deriving DecidableEq

/-- A raw data round as far as snapshot indexing is concerned. -/
structure RawRound where
  dateMs : ℤ
  dist : Option SnapData
deriving DecidableEq

/-- The dedup key `d.asOfDate || r.date`. -/
def rawKey (r : RawRound) : ℤ :=
  match r.dist with
  | some d => d.asOf.getD r.dateMs
  | none => r.dateMs

/-- The dedup loop over rounds: keep a round's snapshot when its key has not
been seen, else drop it. -/
def dedupFirst : List RawRound → List ℤ → List Snap
  | [], _ => []
  | r :: rest, seen =>
    match r.dist with
    | none => dedupFirst rest seen
    | some d =>
      if rawKey r ∈ seen then dedupFirst rest seen
      else ⟨r.dateMs, d.ranges, d.total⟩ :: dedupFirst rest (rawKey r :: seen)

/-- Rounds carrying a nonempty distribution. -/
def distFilter (rounds : List RawRound) : List RawRound :=
  rounds.filter (fun r =>
    match r.dist with
    | some d => decide (0 < d.total)
    | none => false)

/-- The source's `distSnapshots` pipeline: filter rounds with a nonempty
distribution, sort ascending by round date, then keep the first snapshot per
dedup key in that sorted order. -/
def distSnapshotsOf (rounds : List RawRound) : List Snap :=
  dedupFirst (sortByKey RawRound.dateMs (distFilter rounds)) []

/-- Modelled from the spec's words, for comparison: "dedupes by `asOfDate`,
keeping first occurrence encountered in input order; result sorted ascending
by date". -/
def specIndexOf (rounds : List RawRound) : List Snap :=
  sortByKey Snap.dateMs (dedupFirst (distFilter rounds) [])

/-! ## Helper notions for the claims -/

/-- Total count of the bands that lie entirely at or above the threshold
(with bands in descending order these form a prefix). -/
def bandFullCounts (bs : List Band) (t : ℤ) : ℤ :=
  ((bs.takeWhile (fun b => decide (t ≤ b.lo))).map (fun b => (b.count : ℤ))).sum

/-- Contribution of the first band not entirely at or above the threshold:
the linear interpolation when the threshold falls inside it, zero otherwise
(and zero when no band remains). -/
def straddleContrib : List Band → ℤ → ℤ
  | [], _ => 0
  | b :: _, t =>
    if t ≤ b.hi then
      jsRound ((b.count : ℚ) *
        (((b.hi : ℚ) - (t : ℚ) + 1) / ((b.hi : ℚ) - (b.lo : ℚ) + 1)))
    else 0

lemma walkBands_characterization (bs : List Band) (t : ℤ) :
    walkBands bs t =
      bandFullCounts bs t +
        straddleContrib (bs.dropWhile (fun b => decide (t ≤ b.lo))) t := by
  induction bs with
  | nil => simp [walkBands, bandFullCounts, straddleContrib]
  | cons b rest ih =>
    by_cases h : t ≤ b.lo
    · simp only [walkBands, bandFullCounts, List.takeWhile_cons,
        List.dropWhile_cons, decide_eq_true h, if_pos h, ite_true,
        List.map_cons, List.sum_cons] at *
      omega
    · simp [walkBands, bandFullCounts, straddleContrib,
        List.takeWhile_cons, List.dropWhile_cons, h]

/-- The three-band snapshot of the claim's worked example: counts 100 for
band 601+, 200 for 501-600, 9700 for the rest (all intermediate bands 0). -/
def exSnapC3 : Snap := ⟨0, ⟨100, 200, 0, 0, 0, 0, 0, 0, 0, 0, 0, 0, 0, 0, 9700⟩, 10000⟩

/-- C3: `countAtOrAbove` adds the full count of every band entirely above the
threshold, adds the rounded linear interpolation for the first straddling
band, and stops (all lower bands contribute zero); on bands
`[(601,100),(501,200),(0,9700)]` with the top band capped at 1200 and
threshold 550 it returns exactly `100 + round(200 * (600-550+1)/100) = 202`. -/
theorem countAtOrAbove_walk_and_example :
    (∀ (bs : List Band) (t : ℤ),
      walkBands bs t =
        bandFullCounts bs t +
          straddleContrib (bs.dropWhile (fun b => decide (t ≤ b.lo))) t) ∧
    countAboveScore exSnapC3 550 = 202 ∧
    (202 : ℤ) = 100 + jsRound ((200 : ℚ) * (((600 : ℚ) - 550 + 1) / 100)) := by
  refine ⟨walkBands_characterization, ?_, ?_⟩
  · norm_num [countAboveScore, exSnapC3, bandList, walkBands, jsRound]
  · norm_num [jsRound]

/-- C6: with fewer than 4 points, `quadraticFit` is identical to `linearFit`
on the same points: the same optional model (up to the shared model type) and
the same evaluator. -/
theorem quadraticFit_fallback (pts : List QPt) (h : pts.length < 4) :
    polyRegression pts = (linearRegression pts).map RegModel.ofLin ∧
    (∀ m, polyRegression pts = some m →
      ∃ lm, linearRegression pts = some lm ∧ ∀ x, m.evalAt x = lm.evalAt x) := by
  constructor
  · simp [polyRegression, h]
  · intro m hm
    rw [polyRegression, if_pos h] at hm
    cases hl : linearRegression pts with
    | none => rw [hl] at hm; simp at hm
    | some lm =>
      refine ⟨lm, rfl, ?_⟩
      rw [hl] at hm
      simp only [Option.map] at hm
      injection hm with hm
      intro x
      rw [← hm]
      rfl

/-- C6 witness: a concrete 3-point series where the fallback is exercised. -/
theorem quadraticFit_fallback_witness :
    polyRegression [⟨0, 0⟩, ⟨1, 1⟩, ⟨2, 2⟩] =
      (linearRegression [⟨0, 0⟩, ⟨1, 1⟩, ⟨2, 2⟩]).map RegModel.ofLin :=
  (quadraticFit_fallback [⟨0, 0⟩, ⟨1, 1⟩, ⟨2, 2⟩] (by decide)).1

lemma length_insKey (key : α → ℤ) (a : α) (l : List α) :
    (insKey key a l).length = l.length + 1 := by
  induction l with
  | nil => rfl
  | cons b t ih => simp only [insKey]; split <;> simp [ih]

lemma length_sortByKey (key : α → ℤ) (l : List α) :
    (sortByKey key l).length = l.length := by
  induction l with
  | nil => rfl
  | cons a t ih => simp [sortByKey, length_insKey, ih]

/-- C1 (amended): the Eligibility Resolver never attempts a projection on and
produces no verdict at all for a series of fewer than 2 points (the category
is skipped); for every series of at least 2 points it terminates in exactly
one of the four verdicts. -/
theorem verdictFor_total (filtered : List DataPt) (score : ℤ) (mode : PMode)
    (snaps : List Snap) :
    (filtered.length < 2 → verdictFor filtered score mode snaps = none) ∧
    (2 ≤ filtered.length → (verdictFor filtered score mode snaps).isSome) := by
  constructor
  · intro h
    simp [verdictFor, h]
  · intro h
    have hnl : ¬ filtered.length < 2 := by omega
    have hne : sortByKey DataPt.x filtered ≠ [] := by
      intro hnil
      have hlen := length_sortByKey DataPt.x filtered
      rw [hnil] at hlen
      simp at hlen
      omega
    obtain ⟨mr, hmr⟩ := Option.isSome_iff_exists.mp (List.getLast?_isSome.mpr hne)
    simp only [verdictFor, if_neg hnl, hmr]
    split
    · rfl
    · split
      · rfl
      · split <;> rfl

/-- C1 counterexample: a one-point series is answered with no verdict at all,
not with one of Eligible/LastEligible/Ineligible. -/
theorem verdict_short_series_counterexample :
    verdictFor [⟨0, 500, 100⟩] 480 .linear [] = none ∧
    ([(⟨0, 500, 100⟩ : DataPt)]).length < 2 := ⟨rfl, by decide⟩

/-- C1 witness: a 2-point series receives a verdict. -/
theorem verdictFor_total_witness :
    (verdictFor [⟨0, 500, 100⟩, ⟨86400000, 470, 50⟩] 480 .off []).isSome :=
  (verdictFor_total [⟨0, 500, 100⟩, ⟨86400000, 470, 50⟩] 480 .off []).2 (by decide)

lemma searchFirst_here (stepMs horizonMs : ℚ) (f : ℚ → ℚ) (t c : ℚ)
    (h : f t ≤ c) : searchFirst stepMs horizonMs f t c = some t := by
  simp only [searchFirst, numSearchSteps, searchLoop, if_pos h]

/-- C2 (amended): whenever the current competition ratio computed from the
most recent snapshot is at most 1.0, the Pool-Aware Crossing Model returns no
result — indistinguishable from any other failure — and the caller therefore
falls back to the plain trend-crossing search instead of treating the user as
already competitive. -/
theorem pool_ratio_le_one_is_failure (sorted : List DataPt) (userScore : ℤ)
    (mode : PMode) (snaps : List Snap) (latest : Snap) (medianInv : ℤ)
    (hlast : snaps.getLast? = some latest)
    (hmed : medianInvOf sorted = some medianInv)
    (hratio : ((countAboveScore latest userScore : ℤ) : ℚ) /
      ((medianInv : ℤ) : ℚ) ≤ 1) :
    getPoolAwareProjection sorted userScore mode snaps = none ∧
    getProjectedCrossing sorted userScore mode snaps =
      (trendCrossing sorted userScore mode).map (fun t => ⟨t, false⟩) := by
  have hpool : getPoolAwareProjection sorted userScore mode snaps = none := by
    rw [getPoolAwareProjection]
    split
    · rfl
    · rw [hlast]
      simp only [hmed, if_pos hratio]
  refine ⟨hpool, ?_⟩
  rw [getProjectedCrossing]
  simp only [hpool, ite_self]

/-- The pool-distribution histogram of the concrete scenario: 50 candidates in
the 601+ band and none below. -/
def cDist : Dist := ⟨50, 0, 0, 0, 0, 0, 0, 0, 0, 0, 0, 0, 0, 0, 0⟩

/-- Three snapshots, one per round date of `cSeries`. -/
def cSnaps : List Snap :=
  [⟨0, cDist, 50⟩, ⟨6048000000, cDist, 50⟩, ⟨12096000000, cDist, 50⟩]

/-- Three rounds, 70 days apart, 100 invitations each, scores 500/490/495. -/
def cSeries : List DataPt :=
  [⟨0, 500, 100⟩, ⟨6048000000, 490, 100⟩, ⟨12096000000, 495, 100⟩]

/-- C2 counterexample: with user score 493 the current competition ratio is
`50/100 ≤ 1`, yet the model returns `none` and the caller falls through to the
plain trend-crossing search, producing a non-pool-aware `Projected` verdict
instead of treating the user as already competitive. -/
theorem pool_shortcircuit_counterexample :
    ((countAboveScore (cSnaps.getLastD ⟨0, cDist, 50⟩) 493 : ℤ) : ℚ) / 100 ≤ 1 ∧
    getPoolAwareProjection cSeries 493 .linear cSnaps = none ∧
    getProjectedCrossing cSeries 493 .linear cSnaps =
      some ⟨12096000000, false⟩ ∧
    verdictFor cSeries 493 .linear cSnaps =
      some (.projected 12096000000 false) := by
  have hcount : countAboveScore (⟨12096000000, cDist, 50⟩ : Snap) 493 = 50 := by
    norm_num [countAboveScore, cDist, bandList, walkBands, jsRound]
  have hratio : ((countAboveScore
      ((⟨12096000000, cDist, 50⟩ : Snap)) 493 : ℤ) : ℚ) / ((100 : ℤ) : ℚ) ≤ 1 := by
    rw [hcount]; norm_num
  have hmed : medianInvOf cSeries = some 100 := by
    norm_num [medianInvOf, recentInvitationsOf, cSeries, sortByKey, insKey,
      List.filter, List.isEmpty]
  have hlast : cSnaps.getLast? = some ⟨12096000000, cDist, 50⟩ := by
    simp [cSnaps]
  have hmain := pool_ratio_le_one_is_failure cSeries 493 .linear cSnaps
    ⟨12096000000, cDist, 50⟩ 100 hlast hmed hratio
  have hfit : linearRegression (cSeries.map toQPt) =
      some ⟨-1 / 2419200000, 995 / 2⟩ := by
    norm_num [linearRegression, detLin, sumX, sumY, sumXY, sumXX, eps10,
      cSeries, toQPt]
  have htrend : trendCrossing cSeries 493 .linear = some 12096000000 := by
    rw [trendCrossing]
    simp only [hfit]
    norm_num [cSeries, toQPt, RegModel.ofLin]
    rw [if_neg (show ¬(PMode.linear = PMode.movingAvg) by simp),
      if_neg (show ¬(PMode.linear = PMode.poly) by simp)]
    exact searchFirst_here _ _ _ _ _ (by norm_num [RegModel.evalAt])
  have hcross : getProjectedCrossing cSeries 493 .linear cSnaps =
      some ⟨12096000000, false⟩ := by
    rw [hmain.2, htrend]; rfl
  have hgd : cSnaps.getLastD ⟨0, cDist, 50⟩ = ⟨12096000000, cDist, 50⟩ := by
    simp [cSnaps, List.getLastD]
  have hsort : sortByKey DataPt.x cSeries = cSeries := by
    norm_num [cSeries, sortByKey, insKey]
  have hlast3 : cSeries.getLast? = some ⟨12096000000, 495, 100⟩ := by
    simp [cSeries]
  have hfilt3 : cSeries.filter (fun d => decide (d.y ≤ 493)) =
      [⟨6048000000, 490, 100⟩] := by
    norm_num [cSeries, List.filter]
  refine ⟨by rw [hgd, hcount]; norm_num, hmain.1, hcross, ?_⟩
  rw [verdictFor]
  simp only [hsort]
  simp only [hlast3, hfilt3]
  norm_num [hcross]
  refine ⟨by norm_num [cSeries], ?_⟩
  rw [if_neg (show ¬(PMode.linear = PMode.off) by simp)]

/-- C2 witness: the amended theorem applied to the concrete scenario. -/
theorem pool_ratio_le_one_is_failure_witness :
    getPoolAwareProjection cSeries 493 .linear cSnaps = none ∧
    getProjectedCrossing cSeries 493 .linear cSnaps =
      (trendCrossing cSeries 493 .linear).map (fun t => ⟨t, false⟩) := by
  refine pool_ratio_le_one_is_failure cSeries 493 .linear cSnaps
    ⟨12096000000, cDist, 50⟩ 100 (by simp [cSnaps]) ?_ ?_
  · norm_num [medianInvOf, recentInvitationsOf, cSeries, sortByKey, insKey,
      List.filter, List.isEmpty]
  · norm_num [countAboveScore, cDist, bandList, walkBands, jsRound]

/-! ### C4: the weekly search -/

lemma searchLoop_eq_some (f : ℚ → ℚ) (c stepq : ℚ) :
    ∀ (n : ℕ) (t t' : ℚ), searchLoop f c stepq t n = some t' →
      ∃ k < n, t' = t + (k : ℚ) * stepq ∧ f t' ≤ c ∧
        ∀ j < k, ¬ f (t + (j : ℚ) * stepq) ≤ c := by
  intro n
  induction n with
  | zero => intro t t' h; simp [searchLoop] at h
  | succ m ih =>
    intro t t' h
    rw [searchLoop] at h
    by_cases hf : f t ≤ c
    · rw [if_pos hf] at h
      injection h with h
      subst h
      refine ⟨0, Nat.succ_pos m, by push_cast; ring, hf, ?_⟩
      intro j hj
      exact absurd hj (Nat.not_lt_zero j)
    · rw [if_neg hf] at h
      obtain ⟨k, hk, ht', hc, hmin⟩ := ih (t + stepq) t' h
      refine ⟨k + 1, Nat.succ_lt_succ hk, ?_, hc, ?_⟩
      · rw [ht']; push_cast; ring
      · intro j hj
        cases j with
        | zero => simpa using hf
        | succ i =>
          have hi := hmin i (Nat.lt_of_succ_lt_succ hj)
          have harg : t + ((i : ℚ) + 1) * stepq = t + stepq + (i : ℚ) * stepq := by
            ring
          push_cast
          rw [harg]
          exact hi

lemma searchLoop_eq_none (f : ℚ → ℚ) (c stepq : ℚ) :
    ∀ (n : ℕ) (t : ℚ), searchLoop f c stepq t n = none ↔
      ∀ k < n, ¬ f (t + (k : ℚ) * stepq) ≤ c := by
  intro n
  induction n with
  | zero => intro t; simp [searchLoop]
  | succ m ih =>
    intro t
    rw [searchLoop]
    by_cases hf : f t ≤ c
    · rw [if_pos hf]
      simp only [iff_iff_implies_and_implies]
      constructor
      · intro h; exact absurd h (by simp)
      · intro h
        exact absurd (by simpa using h 0 (Nat.succ_pos m)) (not_not_intro hf)
    · rw [if_neg hf, ih (t + stepq)]
      constructor
      · intro h k hk
        cases k with
        | zero => simpa using hf
        | succ i =>
          have hi := h i (Nat.lt_of_succ_lt_succ hk)
          have harg : t + ((i : ℚ) + 1) * stepq = t + stepq + (i : ℚ) * stepq := by
            ring
          push_cast
          rw [harg]
          exact hi
      · intro h i hi
        have := h (i + 1) (Nat.succ_lt_succ hi)
        have harg : t + ((i : ℚ) + 1) * stepq = t + stepq + (i : ℚ) * stepq := by
          ring
        push_cast at this
        rw [harg] at this
        exact this

lemma trend_steps_157 : numSearchSteps trendStepMs trendHorizonMs = 157 := by
  norm_num [numSearchSteps, trendStepMs, trendHorizonMs]
  decide

/-- C4: both the plain trend-crossing search and the pool-aware crossing
search use a step of exactly 7 days and a horizon of exactly 3 years (the
same two constants, independent of mode), so each search evaluates exactly
157 weekly instants `lastT + k*week`, `k = 0..156`, and returns the first one
whose fitted value satisfies the crossing condition, or nothing. -/
theorem weekly_search_constants_and_termination :
    trendStepMs = poolStepMs ∧ trendHorizonMs = poolHorizonMs ∧
    trendStepMs = 7 * 24 * 60 * 60 * 1000 ∧
    trendHorizonMs = 3 * (1461 / 4) * 24 * 60 * 60 * 1000 ∧
    numSearchSteps trendStepMs trendHorizonMs = 157 ∧
    numSearchSteps poolStepMs poolHorizonMs = 157 ∧
    (∀ (f : ℚ → ℚ) (lastT c t' : ℚ),
      searchFirst trendStepMs trendHorizonMs f lastT c = some t' →
        ∃ k : ℕ, k < 157 ∧ t' = lastT + (k : ℚ) * trendStepMs ∧ f t' ≤ c ∧
          ∀ j : ℕ, j < k → ¬ f (lastT + (j : ℚ) * trendStepMs) ≤ c) ∧
    (∀ (f : ℚ → ℚ) (lastT c : ℚ),
      searchFirst poolStepMs poolHorizonMs f lastT c = none ↔
        ∀ k : ℕ, k < 157 → ¬ f (lastT + (k : ℚ) * poolStepMs) ≤ c) := by
  have h157 := trend_steps_157
  have hstep : trendStepMs = poolStepMs := rfl
  have hhor : trendHorizonMs = poolHorizonMs := rfl
  refine ⟨hstep, hhor, rfl, rfl, h157, by rw [← hstep, ← hhor]; exact h157, ?_, ?_⟩
  · intro f lastT c t' h
    rw [searchFirst, h157] at h
    exact searchLoop_eq_some f c trendStepMs 157 lastT t' h
  · intro f lastT c
    rw [searchFirst, ← hstep, ← hhor, h157]
    exact searchLoop_eq_none f c trendStepMs 157 lastT

/-- C4 witness: the search characterization applied to a constant evaluator
that crosses immediately. -/
theorem weekly_search_witness :
    ∃ k : ℕ, k < 157 ∧ (0 : ℚ) = 0 + (k : ℚ) * trendStepMs ∧ (0 : ℚ) ≤ 0 ∧
      ∀ j : ℕ, j < k → ¬ ((0 : ℚ) ≤ 0) :=
  weekly_search_constants_and_termination.2.2.2.2.2.2.1 (fun _ => 0) 0 0 0
    (searchFirst_here trendStepMs trendHorizonMs (fun _ => 0) 0 0 (le_refl 0))

/-! ### C10: monotonicity and bounds of the band walk -/

lemma jsRound_nonneg {q : ℚ} (h : 0 ≤ q) : 0 ≤ jsRound q := by
  unfold jsRound
  exact Int.floor_nonneg.mpr (by linarith)

lemma jsRound_mono {p q : ℚ} (h : p ≤ q) : jsRound p ≤ jsRound q :=
  Int.floor_le_floor (by linarith)

lemma jsRound_le_int {q : ℚ} {c : ℤ} (h : q ≤ (c : ℚ)) : jsRound q ≤ c := by
  unfold jsRound
  have h1 : ⌊q + 1/2⌋ ≤ ⌊(1 : ℚ)/2 + (c : ℚ)⌋ := Int.floor_le_floor (by linarith)
  rwa [Int.floor_add_int, show ⌊(1 : ℚ)/2⌋ = 0 by norm_num, zero_add] at h1

/-- The straddling-band interpolation value, as a rational. -/
def interpQ (b : Band) (t : ℤ) : ℚ :=
  (b.count : ℚ) * (((b.hi : ℚ) - (t : ℚ) + 1) / ((b.hi : ℚ) - (b.lo : ℚ) + 1))

lemma interpQ_nonneg {b : Band} {t : ℤ} (hwf : b.lo ≤ b.hi) (ht : t ≤ b.hi) :
    0 ≤ interpQ b t := by
  unfold interpQ
  have h1 : (t : ℚ) ≤ (b.hi : ℚ) := Int.cast_le.mpr ht
  have h2 : (b.lo : ℚ) ≤ (b.hi : ℚ) := Int.cast_le.mpr hwf
  apply mul_nonneg (by positivity)
  apply div_nonneg <;> linarith

lemma interpQ_le_count {b : Band} {t : ℤ} (hwf : b.lo ≤ b.hi) (ht : b.lo < t) :
    interpQ b t ≤ (b.count : ℚ) := by
  unfold interpQ
  have h1 : (b.lo : ℚ) < (t : ℚ) := Int.cast_lt.mpr ht
  have h2 : (b.lo : ℚ) ≤ (b.hi : ℚ) := Int.cast_le.mpr hwf
  have hlt : (b.lo : ℚ) + 1 ≤ (t : ℚ) := by
    have : b.lo + 1 ≤ t := ht
    exact_mod_cast Int.cast_le.mpr this
  apply mul_le_of_le_one_right (by positivity)
  rw [div_le_one (by linarith)]
  linarith

lemma interpQ_anti {b : Band} {t1 t2 : ℤ} (hwf : b.lo ≤ b.hi) (h : t1 ≤ t2) :
    interpQ b t2 ≤ interpQ b t1 := by
  unfold interpQ
  have h1 : (t1 : ℚ) ≤ (t2 : ℚ) := Int.cast_le.mpr h
  have h2 : (b.lo : ℚ) ≤ (b.hi : ℚ) := Int.cast_le.mpr hwf
  apply mul_le_mul_of_nonneg_left _ (by positivity)
  apply div_le_div_of_nonneg_right ?_ (by linarith)
  linarith

lemma walkBands_interp_eq (b : Band) (rest : List Band) (t : ℤ)
    (h1 : ¬ t ≤ b.lo) :
    walkBands (b :: rest) t = if t ≤ b.hi then jsRound (interpQ b t) else 0 := by
  rw [walkBands, if_neg h1]
  rfl

lemma walkBands_nonneg : ∀ (bs : List Band), (∀ b ∈ bs, b.lo ≤ b.hi) →
    ∀ t, 0 ≤ walkBands bs t := by
  intro bs
  induction bs with
  | nil => intro _ t; exact le_refl 0
  | cons b rest ih =>
    intro hwf t
    have hb := hwf b (List.mem_cons_self b rest)
    have hrest := fun x hx => hwf x (List.mem_cons_of_mem b hx)
    by_cases h1 : t ≤ b.lo
    · rw [walkBands, if_pos h1]
      exact add_nonneg (Int.natCast_nonneg _) (ih hrest t)
    · rw [walkBands_interp_eq b rest t h1]
      by_cases h2 : t ≤ b.hi
      · rw [if_pos h2]
        exact jsRound_nonneg (interpQ_nonneg hb h2)
      · rw [if_neg h2]

lemma walkBands_le_sum : ∀ (bs : List Band), (∀ b ∈ bs, b.lo ≤ b.hi) →
    ∀ t, walkBands bs t ≤ (bs.map (fun b => (b.count : ℤ))).sum := by
  intro bs
  induction bs with
  | nil => intro _ t; simp [walkBands]
  | cons b rest ih =>
    intro hwf t
    have hb := hwf b (List.mem_cons_self b rest)
    have hrest := fun x hx => hwf x (List.mem_cons_of_mem b hx)
    have hsum : (0 : ℤ) ≤ ((rest.map (fun b => (b.count : ℤ))).sum) := by
      apply List.sum_nonneg
      intro x hx
      simp only [List.mem_map] at hx
      obtain ⟨y, _, hy⟩ := hx
      rw [← hy]
      exact Int.natCast_nonneg _
    simp only [List.map_cons, List.sum_cons]
    by_cases h1 : t ≤ b.lo
    · rw [walkBands, if_pos h1]
      exact add_le_add_left (ih hrest t) _
    · rw [walkBands_interp_eq b rest t h1]
      by_cases h2 : t ≤ b.hi
      · rw [if_pos h2]
        have := jsRound_le_int (interpQ_le_count hb (lt_of_not_le h1))
        omega
      · rw [if_neg h2]
        omega

lemma walkBands_anti : ∀ (bs : List Band), (∀ b ∈ bs, b.lo ≤ b.hi) →
    ∀ t1 t2 : ℤ, t1 ≤ t2 → walkBands bs t2 ≤ walkBands bs t1 := by
  intro bs
  induction bs with
  | nil => intro _ t1 t2 _; exact le_refl 0
  | cons b rest ih =>
    intro hwf t1 t2 h
    have hb := hwf b (List.mem_cons_self b rest)
    have hrest := fun x hx => hwf x (List.mem_cons_of_mem b hx)
    by_cases h2 : t2 ≤ b.lo
    · have h1 : t1 ≤ b.lo := le_trans h h2
      rw [walkBands, if_pos h2, walkBands, if_pos h1]
      exact add_le_add_left (ih hrest t1 t2 h) _
    · by_cases h1 : t1 ≤ b.lo
      · rw [walkBands_interp_eq b rest t2 h2, walkBands, if_pos h1]
        have hr := walkBands_nonneg rest hrest t1
        by_cases g2 : t2 ≤ b.hi
        · rw [if_pos g2]
          have := jsRound_le_int (interpQ_le_count hb (lt_of_not_le h2))
          omega
        · rw [if_neg g2]
          omega
      · rw [walkBands_interp_eq b rest t1 h1, walkBands_interp_eq b rest t2 h2]
        by_cases g2 : t2 ≤ b.hi
        · have g1 : t1 ≤ b.hi := le_trans h g2
          rw [if_pos g1, if_pos g2]
          exact jsRound_mono (interpQ_anti hb h)
        · rw [if_neg g2]
          by_cases g1 : t1 ≤ b.hi
          · rw [if_pos g1]
            exact jsRound_nonneg (interpQ_nonneg hb g1)
          · rw [if_neg g1]

lemma bandList_wf (d : Dist) : ∀ b ∈ bandList d, b.lo ≤ b.hi := by
  intro b hb
  simp only [bandList, List.mem_cons, List.not_mem_nil, or_false] at hb
  rcases hb with h|h|h|h|h|h|h|h|h|h|h|h|h|h|h <;> (subst h; norm_num)

/-- C10: `countAtOrAbove` is monotonically non-increasing in the threshold,
and every returned count lies between 0 and the sum of all band counts. -/
theorem countAtOrAbove_antitone_and_bounded (s : Snap) (t1 t2 : ℤ)
    (h : t1 ≤ t2) :
    countAboveScore s t2 ≤ countAboveScore s t1 ∧
    0 ≤ countAboveScore s t2 ∧
    countAboveScore s t2 ≤ sumBandCounts s := by
  have hwf := bandList_wf s.ranges
  exact ⟨walkBands_anti _ hwf t1 t2 h, walkBands_nonneg _ hwf t2,
    walkBands_le_sum _ hwf t2⟩

/-- C10 witness: the bounds at the concrete example snapshot,
thresholds 400 and 550. -/
theorem countAtOrAbove_antitone_witness :
    countAboveScore exSnapC3 550 ≤ countAboveScore exSnapC3 400 ∧
    0 ≤ countAboveScore exSnapC3 550 ∧
    countAboveScore exSnapC3 550 ≤ sumBandCounts exSnapC3 :=
  countAtOrAbove_antitone_and_bounded exSnapC3 400 550 (by decide)

/-! ### C5: ordinary least squares -/

/-- Sum of squared residuals of the line `y = slope*x + intercept`. -/
def leastSqErr (slope intercept : ℚ) (pts : List QPt) : ℚ :=
  (pts.map (fun p => (p.y - (slope * p.x + intercept)) ^ 2)).sum

lemma sum_res (s i : ℚ) (pts : List QPt) :
    (pts.map (fun p => p.y - (s * p.x + i))).sum =
      sumY pts - s * sumX pts - (pts.length : ℚ) * i := by
  induction pts with
  | nil => simp [sumY, sumX]
  | cons p l ih =>
    simp only [List.map_cons, List.sum_cons, sumY, sumX, List.length_cons] at *
    rw [ih]
    push_cast
    ring

lemma sum_res_x (s i : ℚ) (pts : List QPt) :
    (pts.map (fun p => (p.y - (s * p.x + i)) * p.x)).sum =
      sumXY pts - s * sumXX pts - i * sumX pts := by
  induction pts with
  | nil => simp [sumXY, sumXX, sumX]
  | cons p l ih =>
    simp only [List.map_cons, List.sum_cons, sumXY, sumXX, sumX] at *
    rw [ih]
    ring

lemma sse_shift (s i a b : ℚ) (pts : List QPt) :
    leastSqErr a b pts = leastSqErr s i pts
      + (pts.map (fun p => ((a - s) * p.x + (b - i)) ^ 2)).sum
      - 2 * ((a - s) * (pts.map (fun p => (p.y - (s * p.x + i)) * p.x)).sum
             + (b - i) * (pts.map (fun p => p.y - (s * p.x + i))).sum) := by
  induction pts with
  | nil => simp [leastSqErr]
  | cons p l ih =>
    simp only [leastSqErr, List.map_cons, List.sum_cons] at *
    linear_combination ih

/-- C5: `linearFit` returns no model exactly when there are fewer than 2
points or the normal-equation determinant is below `1e-10` in absolute value;
otherwise it returns the evaluator `y = slope*x + intercept` whose slope and
intercept satisfy the least-squares normal equations and minimize the sum of
squared residuals over all lines. -/
theorem linearFit_spec (pts : List QPt) :
    (linearRegression pts = none ↔
      pts.length < 2 ∨ |detLin pts| < eps10) ∧
    ∀ m, linearRegression pts = some m →
      (∀ x, m.evalAt x = m.slope * x + m.intercept) ∧
      (pts.map (fun p => p.y - (m.slope * p.x + m.intercept))).sum = 0 ∧
      (pts.map (fun p => (p.y - (m.slope * p.x + m.intercept)) * p.x)).sum = 0 ∧
      ∀ a b, leastSqErr m.slope m.intercept pts ≤ leastSqErr a b pts := by
  constructor
  · simp only [linearRegression]
    split_ifs with h1 h2
    · simp [h1]
    · simp [h1, h2]
    · simp [h1, h2]
  · intro m hm
    simp only [linearRegression] at hm
    by_cases h1 : pts.length < 2
    · rw [if_pos h1] at hm
      exact absurd hm (by simp)
    rw [if_neg h1] at hm
    by_cases h2 : |detLin pts| < eps10
    · rw [if_pos h2] at hm
      exact absurd hm (by simp)
    rw [if_neg h2] at hm
    · injection hm with hm
      have hn : (pts.length : ℚ) ≠ 0 := by
        have h2le : 2 ≤ pts.length := not_lt.mp h1
        exact_mod_cast Nat.cast_ne_zero.mpr (by omega)
      have hd : detLin pts ≠ 0 := by
        intro h0
        rw [h0] at h2
        exact h2 (by norm_num [eps10])
      have hs : m.slope =
          ((pts.length : ℚ) * sumXY pts - sumX pts * sumY pts) / detLin pts := by
        rw [← hm]
      have hi : m.intercept =
          (sumY pts - m.slope * sumX pts) / (pts.length : ℚ) := by
        rw [← hm]
      have hne1 : (pts.map
          (fun p => p.y - (m.slope * p.x + m.intercept))).sum = 0 := by
        rw [sum_res, hi]
        field_simp
      have hne2 : (pts.map
          (fun p => (p.y - (m.slope * p.x + m.intercept)) * p.x)).sum = 0 := by
        rw [sum_res_x, hi, hs]
        simp only [detLin] at hd ⊢
        field_simp
        ring
      refine ⟨fun x => rfl, hne1, hne2, ?_⟩
      intro a b
      rw [sse_shift m.slope m.intercept a b pts, hne1, hne2]
      simp only [mul_zero, add_zero, sub_zero]
      have hsq : 0 ≤ (pts.map
          (fun p => ((a - m.slope) * p.x + (b - m.intercept)) ^ 2)).sum := by
        apply List.sum_nonneg
        intro x hx
        simp only [List.mem_map] at hx
        obtain ⟨p, _, hp⟩ := hx
        rw [← hp]
        positivity
      linarith

/-- C5 witness: the fit through `(0,0)` and `(1,1)` is `y = x` and its
residual error is at most that of the line `y = 3x - 2`. -/
theorem linearFit_spec_witness :
    leastSqErr (1 : ℚ) 0 [⟨0, 0⟩, ⟨1, 1⟩] ≤ leastSqErr 3 (-2) [⟨0, 0⟩, ⟨1, 1⟩] :=
  ((linearFit_spec [⟨0, 0⟩, ⟨1, 1⟩]).2 ⟨1, 0⟩ (by
    norm_num [linearRegression, detLin, sumX, sumY, sumXY, sumXX, eps10])).2.2.2 3 (-2)

/-! ### C8: snapshot index construction -/

lemma mem_insKey (key : α → ℤ) (a x : α) (l : List α) :
    x ∈ insKey key a l ↔ x = a ∨ x ∈ l := by
  induction l with
  | nil => simp [insKey]
  | cons b t ih =>
    simp only [insKey]
    split
    · simp only [List.mem_cons, ih]
      tauto
    · simp only [List.mem_cons]

lemma insKey_pairwise (key : α → ℤ) (a : α) (l : List α)
    (h : List.Pairwise (fun u v => key u ≤ key v) l) :
    List.Pairwise (fun u v => key u ≤ key v) (insKey key a l) := by
  induction l with
  | nil => simp [insKey]
  | cons b t ih =>
    rw [List.pairwise_cons] at h
    obtain ⟨hb, ht⟩ := h
    rw [insKey]
    split
    · rename_i hlt
      rw [List.pairwise_cons]
      refine ⟨?_, ih ht⟩
      intro x hx
      rcases (mem_insKey key a x t).mp hx with h | h
      · subst h; exact le_of_lt hlt
      · exact hb x h
    · rename_i hnlt
      rw [List.pairwise_cons]
      refine ⟨?_, List.pairwise_cons.mpr ⟨hb, ht⟩⟩
      intro x hx
      rcases List.mem_cons.mp hx with h | h
      · subst h; exact le_of_not_lt hnlt
      · exact le_trans (le_of_not_lt hnlt) (hb x h)

lemma sortByKey_pairwise (key : α → ℤ) (l : List α) :
    List.Pairwise (fun u v => key u ≤ key v) (sortByKey key l) := by
  induction l with
  | nil => simp [sortByKey]
  | cons a t ih => exact insKey_pairwise key a _ ih

lemma dedupFirst_dates_sublist : ∀ (l : List RawRound) (seen : List ℤ),
    ((dedupFirst l seen).map Snap.dateMs).Sublist (l.map RawRound.dateMs) := by
  intro l
  induction l with
  | nil => intro seen; simp [dedupFirst]
  | cons r rest ih =>
    intro seen
    cases hdist : r.dist with
    | none =>
      simp only [dedupFirst, hdist, List.map_cons]
      exact List.Sublist.cons _ (ih seen)
    | some d =>
      simp only [dedupFirst, hdist, List.map_cons]
      by_cases hk : rawKey r ∈ seen
      · rw [if_pos hk]
        exact List.Sublist.cons _ (ih seen)
      · rw [if_neg hk]
        simp only [List.map_cons]
        exact List.Sublist.cons₂ _ (ih _)

lemma dedupFirst_first_occ : ∀ (l : List RawRound) (seen : List ℤ) (s : Snap),
    s ∈ dedupFirst l seen →
      ∃ pre r post d,
        l = pre ++ r :: post ∧ r.dist = some d ∧
        s = ⟨r.dateMs, d.ranges, d.total⟩ ∧ rawKey r ∉ seen ∧
        ∀ r' ∈ pre, r'.dist = none ∨ rawKey r' ∈ seen ∨
          rawKey r' ≠ rawKey r := by
  intro l
  induction l with
  | nil => intro seen s h; simp [dedupFirst] at h
  | cons r rest ih =>
    intro seen s h
    cases hdist : r.dist with
    | none =>
      simp only [dedupFirst, hdist] at h
      obtain ⟨pre, r0, post, d, hl, hd, hs, hns, hpre⟩ := ih seen s h
      refine ⟨r :: pre, r0, post, d, by rw [hl]; rfl, hd, hs, hns, ?_⟩
      intro r' hr'
      rcases List.mem_cons.mp hr' with h' | h'
      · subst h'; exact Or.inl hdist
      · exact hpre r' h'
    | some d0 =>
      simp only [dedupFirst, hdist] at h
      by_cases hk : rawKey r ∈ seen
      · rw [if_pos hk] at h
        obtain ⟨pre, r0, post, d, hl, hd, hs, hns, hpre⟩ := ih seen s h
        refine ⟨r :: pre, r0, post, d, by rw [hl]; rfl, hd, hs, hns, ?_⟩
        intro r' hr'
        rcases List.mem_cons.mp hr' with h' | h'
        · subst h'; exact Or.inr (Or.inl hk)
        · exact hpre r' h'
      · rw [if_neg hk] at h
        rcases List.mem_cons.mp h with h' | h'
        · exact ⟨[], r, rest, d0, rfl, hdist, h', hk, by simp⟩
        · obtain ⟨pre, r0, post, d, hl, hd, hs, hns, hpre⟩ :=
            ih (rawKey r :: seen) s h'
          have hne : rawKey r ≠ rawKey r0 := by
            intro he
            exact hns (by rw [← he]; exact List.mem_cons_self _ _)
          refine ⟨r :: pre, r0, post, d, by rw [hl]; rfl, hd, hs,
            fun hc => hns (List.mem_cons_of_mem _ hc), ?_⟩
          intro r' hr'
          rcases List.mem_cons.mp hr' with h'' | h''
          · subst h''; exact Or.inr (Or.inr hne)
          · rcases hpre r' h'' with hd' | hseen' | hne'
            · exact Or.inl hd'
            · rcases List.mem_cons.mp hseen' with he | he
              · exact Or.inr (Or.inr (by rw [he]; exact hne))
              · exact Or.inr (Or.inl he)
            · exact Or.inr (Or.inr hne')

/-- C8 (amended): the snapshot index sorts the distribution-carrying rounds
ascending by round date first and deduplicates in that sorted order: its
result is sorted ascending by date, and every kept snapshot is the first
occurrence of its `asOfDate` key in the date-sorted sequence, later
duplicates being discarded silently. (Input order matters only through the
stable date sort, not as the dedup order.) -/
theorem distIndex_dedup_after_sort (rounds : List RawRound) :
    List.Pairwise (fun a b => a.dateMs ≤ b.dateMs) (distSnapshotsOf rounds) ∧
    ∀ s ∈ distSnapshotsOf rounds,
      ∃ pre r post d,
        sortByKey RawRound.dateMs (distFilter rounds) = pre ++ r :: post ∧
        r.dist = some d ∧ s = ⟨r.dateMs, d.ranges, d.total⟩ ∧
        ∀ r' ∈ pre, r'.dist = none ∨ rawKey r' ≠ rawKey r := by
  constructor
  · have hsorted := sortByKey_pairwise RawRound.dateMs (distFilter rounds)
    have hmap : List.Pairwise (fun a b : ℤ => a ≤ b)
        ((sortByKey RawRound.dateMs (distFilter rounds)).map RawRound.dateMs) :=
      List.pairwise_map.mpr hsorted
    have hsub := dedupFirst_dates_sublist
      (sortByKey RawRound.dateMs (distFilter rounds)) []
    have := List.Pairwise.sublist hsub hmap
    exact List.pairwise_map.mp this
  · intro s hs
    obtain ⟨pre, r, post, d, hl, hd, hsval, _, hpre⟩ :=
      dedupFirst_first_occ _ [] s hs
    refine ⟨pre, r, post, d, hl, hd, hsval, ?_⟩
    intro r' hr'
    rcases hpre r' hr' with h | h | h
    · exact Or.inl h
    · exact absurd h (List.not_mem_nil _)
    · exact Or.inr h

/-- The later-in-input, earlier-by-date duplicate pair of the C8
counterexample: both rounds carry the same `asOfDate` key 7. -/
def rA : RawRound := ⟨200, some ⟨some 7, cDist, 5⟩⟩

def rB : RawRound := ⟨100, some ⟨some 7, cDist, 9⟩⟩

/-- C8 counterexample: the code deduplicates after sorting by round date, so
for two duplicate-key rounds arriving latest-date-first it keeps the
earlier-dated one — not the first occurrence in input order, which the
spec-modelled index keeps. -/
theorem index_input_order_counterexample :
    distSnapshotsOf [rA, rB] = [⟨100, cDist, 9⟩] ∧
    specIndexOf [rA, rB] = [⟨200, cDist, 5⟩] ∧
    distSnapshotsOf [rA, rB] ≠ specIndexOf [rA, rB] := by decide

/-- C8 witness: the first-occurrence characterization at the kept snapshot of
the counterexample input. -/
theorem distIndex_dedup_witness :
    ∃ pre r post d,
      sortByKey RawRound.dateMs (distFilter [rA, rB]) = pre ++ r :: post ∧
      r.dist = some d ∧
      (⟨100, cDist, 9⟩ : Snap) = ⟨r.dateMs, d.ranges, d.total⟩ ∧
      ∀ r' ∈ pre, r'.dist = none ∨ rawKey r' ≠ rawKey r :=
  (distIndex_dedup_after_sort [rA, rB]).2 ⟨100, cDist, 9⟩ (by decide)

/-! ### C9: the Projection Builder is a pure function of the series content -/

/-- The data a projection reads from a chart point: date and score. -/
def stripXY (d : DataPt) : ℤ × ℤ := (d.x, d.y)

lemma insKey_map_stripXY (a : DataPt) : ∀ (l : List DataPt),
    (insKey DataPt.x a l).map stripXY =
      insKey Prod.fst (stripXY a) (l.map stripXY) := by
  intro l
  induction l with
  | nil => rfl
  | cons b t ih =>
    simp only [insKey, List.map_cons, stripXY]
    by_cases hlt : b.x < a.x
    · rw [if_pos hlt, if_pos hlt]
      simp only [List.map_cons, ih, stripXY]
    · rw [if_neg hlt, if_neg hlt]
      simp only [List.map_cons, stripXY]

lemma sortByKey_map_stripXY : ∀ (l : List DataPt),
    (sortByKey DataPt.x l).map stripXY =
      sortByKey Prod.fst (l.map stripXY) := by
  intro l
  induction l with
  | nil => rfl
  | cons a t ih =>
    simp only [sortByKey, List.map_cons, insKey_map_stripXY, ih]

lemma headD_map (f : α → β) (l : List α) (d : α) :
    (l.map f).headD (f d) = f (l.headD d) := by
  cases l <;> rfl

lemma getLastD_map (f : α → β) (d : α) : ∀ (l : List α),
    (l.map f).getLastD (f d) = f (l.getLastD d) := by
  intro l
  induction l generalizing d with
  | nil => rfl
  | cons a t ih =>
    rw [List.map_cons, List.getLastD_cons, List.getLastD_cons]
    exact ih a

lemma getD_map (f : α → β) (d : α) : ∀ (l : List α) (n : ℕ),
    (l.map f).getD n (f d) = f (l.getD n d) := by
  intro l
  induction l with
  | nil => intro n; rfl
  | cons a t ih =>
    intro n
    cases n with
    | zero => rfl
    | succ m => exact ih m

section StrippedCongr

variable {S1 S2 : List DataPt}

lemma stripped_x (hs : S1.map stripXY = S2.map stripXY) (i : ℕ) :
    (S1.getD i ⟨0, 0, 0⟩).x = (S2.getD i ⟨0, 0, 0⟩).x := by
  have h1 := getD_map stripXY ⟨0, 0, 0⟩ S1 i
  have h2 := getD_map stripXY ⟨0, 0, 0⟩ S2 i
  rw [hs] at h1
  have := h1.symm.trans h2
  exact congrArg Prod.fst this

lemma stripped_y (hs : S1.map stripXY = S2.map stripXY) (i : ℕ) :
    (S1.getD i ⟨0, 0, 0⟩).y = (S2.getD i ⟨0, 0, 0⟩).y := by
  have h1 := getD_map stripXY ⟨0, 0, 0⟩ S1 i
  have h2 := getD_map stripXY ⟨0, 0, 0⟩ S2 i
  rw [hs] at h1
  have := h1.symm.trans h2
  exact congrArg Prod.snd this

lemma stripped_len (hs : S1.map stripXY = S2.map stripXY) :
    S1.length = S2.length := by
  have := congrArg List.length hs
  simpa using this

lemma stripped_toQPt (hs : S1.map stripXY = S2.map stripXY) :
    S1.map toQPt = S2.map toQPt := by
  have hq : ∀ l : List DataPt,
      l.map toQPt = (l.map stripXY).map (fun p => QPt.mk (p.1 : ℚ) (p.2 : ℚ)) := by
    intro l
    rw [List.map_map]
    rfl
  rw [hq, hq, hs]

lemma stripped_headD_x (hs : S1.map stripXY = S2.map stripXY) :
    (S1.headD ⟨0, 0, 0⟩).x = (S2.headD ⟨0, 0, 0⟩).x := by
  have h1 := headD_map stripXY S1 (⟨0, 0, 0⟩ : DataPt)
  have h2 := headD_map stripXY S2 (⟨0, 0, 0⟩ : DataPt)
  rw [hs] at h1
  exact congrArg Prod.fst (h1.symm.trans h2)

lemma stripped_getLastD_x (hs : S1.map stripXY = S2.map stripXY) :
    (S1.getLastD ⟨0, 0, 0⟩).x = (S2.getLastD ⟨0, 0, 0⟩).x := by
  have h1 := getLastD_map stripXY (⟨0, 0, 0⟩ : DataPt) S1
  have h2 := getLastD_map stripXY (⟨0, 0, 0⟩ : DataPt) S2
  rw [hs] at h1
  exact congrArg Prod.fst (h1.symm.trans h2)

lemma stripped_smoothedRounded (hs : S1.map stripXY = S2.map stripXY) :
    smoothedRounded S1 = smoothedRounded S2 := by
  unfold smoothedRounded
  rw [stripped_len hs]
  apply List.map_congr_left
  intro k _
  simp only [stripped_x hs, stripped_y hs]

end StrippedCongr

lemma regressionProjection_stripped (s1 s2 : List DataPt)
    (regFn : List QPt → Option RegModel)
    (h : s1.map stripXY = s2.map stripXY) :
    regressionProjection s1 regFn = regressionProjection s2 regFn := by
  have hs : (sortByKey DataPt.x s1).map stripXY =
      (sortByKey DataPt.x s2).map stripXY := by
    rw [sortByKey_map_stripXY, sortByKey_map_stripXY, h]
  simp only [regressionProjection]
  rw [stripped_len h, stripped_toQPt hs, stripped_headD_x hs,
    stripped_getLastD_x hs]

lemma movingAvgProjection_stripped (s1 s2 : List DataPt)
    (h : s1.map stripXY = s2.map stripXY) :
    movingAvgProjection s1 = movingAvgProjection s2 := by
  have hs : (sortByKey DataPt.x s1).map stripXY =
      (sortByKey DataPt.x s2).map stripXY := by
    rw [sortByKey_map_stripXY, sortByKey_map_stripXY, h]
  simp only [movingAvgProjection]
  rw [stripped_len h, stripped_smoothedRounded hs]

/-- C9: the Projection Builder is deterministic and depends on nothing but
the input series' dates and scores: in every mode, two calls whose inputs
agree on the `(date, score)` sequence produce identical output point
sequences (in particular, two calls with identical inputs do). -/
theorem projBuilder_deterministic (mode : PMode) (s1 s2 : List DataPt)
    (h : s1.map stripXY = s2.map stripXY) :
    projBuilder mode s1 = projBuilder mode s2 := by
  cases mode with
  | off => rfl
  | linear =>
    simp only [projBuilder]
    rw [stripped_len h, regressionProjection_stripped s1 s2 _ h]
  | movingAvg =>
    simp only [projBuilder]
    rw [stripped_len h, movingAvgProjection_stripped s1 s2 h]
  | poly =>
    simp only [projBuilder]
    rw [stripped_len h, regressionProjection_stripped s1 s2 _ h]

/-- C9 witness: two series equal up to invitation counts produce identical
projections. -/
theorem projBuilder_deterministic_witness :
    projBuilder .linear
        [⟨0, 500, 100⟩, ⟨86400000, 490, 100⟩, ⟨172800000, 480, 100⟩] =
      projBuilder .linear
        [⟨0, 500, 7⟩, ⟨86400000, 490, 8⟩, ⟨172800000, 480, 9⟩] :=
  projBuilder_deterministic .linear _ _ (by decide)

/-! ### C7: the regression projection grid -/

lemma insKey_of_le (key : α → ℤ) (a : α) (l : List α)
    (h : ∀ x ∈ l, key a ≤ key x) : insKey key a l = a :: l := by
  cases l with
  | nil => rfl
  | cons b t =>
    rw [insKey, if_neg (not_lt.mpr (h b (List.mem_cons_self b t)))]

lemma sortByKey_of_sorted (key : α → ℤ) (l : List α)
    (h : List.Pairwise (fun u v => key u ≤ key v) l) :
    sortByKey key l = l := by
  induction l with
  | nil => rfl
  | cons a t ih =>
    rw [List.pairwise_cons] at h
    rw [sortByKey, ih h.2, insKey_of_le key a t h.1]

/-- Sum of squares of a list of integers. -/
def sumSq (xs : List ℤ) : ℤ := (xs.map (fun x => x * x)).sum

/-- The normal-equation determinant over the raw integer x values. -/
def intDet (xs : List ℤ) : ℤ := (xs.length : ℤ) * sumSq xs - xs.sum * xs.sum

lemma sum_sq_expand (a : ℤ) (xs : List ℤ) :
    (xs.map (fun x => (a - x) ^ 2)).sum =
      (xs.length : ℤ) * a ^ 2 - 2 * a * xs.sum + sumSq xs := by
  induction xs with
  | nil => simp [sumSq]
  | cons c t ih =>
    simp only [List.map_cons, List.sum_cons, List.length_cons, sumSq] at *
    rw [ih]
    push_cast
    ring

lemma intDet_cons (a : ℤ) (xs : List ℤ) :
    intDet (a :: xs) = intDet xs + (xs.map (fun x => (a - x) ^ 2)).sum := by
  rw [sum_sq_expand]
  simp only [intDet, sumSq, List.length_cons, List.sum_cons, List.map_cons]
  push_cast
  ring

lemma sq_list_nonneg (a : ℤ) (xs : List ℤ) :
    0 ≤ (xs.map (fun x => (a - x) ^ 2)).sum := by
  apply List.sum_nonneg
  intro v hv
  simp only [List.mem_map] at hv
  obtain ⟨x, _, hx⟩ := hv
  rw [← hx]
  positivity

lemma intDet_nonneg : ∀ xs : List ℤ, 0 ≤ intDet xs := by
  intro xs
  induction xs with
  | nil => simp [intDet, sumSq]
  | cons a t ih =>
    rw [intDet_cons]
    exact add_nonneg ih (sq_list_nonneg a t)

lemma intDet_pos (xs : List ℤ) (a b : ℤ) (ha : a ∈ xs) (hb : b ∈ xs)
    (hne : a ≠ b) : 1 ≤ intDet xs := by
  suffices h : 0 < intDet xs by omega
  induction xs with
  | nil => exact absurd ha (List.not_mem_nil a)
  | cons c t ih =>
    rw [intDet_cons]
    have hsq : ∀ u v : ℤ, u ≠ v → 0 < (u - v) ^ 2 := by
      intro u v huv
      have h0 : u - v ≠ 0 := sub_ne_zero.mpr huv
      positivity
    rcases List.mem_cons.mp ha with rfl | hat
    · rcases List.mem_cons.mp hb with rfl | hbt
      · exact absurd rfl hne
      · have hterm : (a - b) ^ 2 ≤ (t.map (fun x => (a - x) ^ 2)).sum := by
          apply List.single_le_sum
          · intro v hv
            simp only [List.mem_map] at hv
            obtain ⟨x, _, hx⟩ := hv
            rw [← hx]; positivity
          · exact List.mem_map_of_mem _ hbt
        have := hsq a b hne
        have := intDet_nonneg t
        omega
    · rcases List.mem_cons.mp hb with rfl | hbt
      · have hterm : (b - a) ^ 2 ≤ (t.map (fun x => (b - x) ^ 2)).sum := by
          apply List.single_le_sum
          · intro v hv
            simp only [List.mem_map] at hv
            obtain ⟨x, _, hx⟩ := hv
            rw [← hx]; positivity
          · exact List.mem_map_of_mem _ hat
        have := hsq b a (Ne.symm hne)
        have := intDet_nonneg t
        omega
      · have := ih hat hbt
        have := sq_list_nonneg c t
        omega

lemma sumX_map_toQPt (l : List DataPt) :
    sumX (l.map toQPt) = ((l.map DataPt.x).sum : ℚ) := by
  induction l with
  | nil => simp [sumX]
  | cons a t ih =>
    simp only [List.map_cons, sumX, List.sum_cons] at *
    rw [ih]
    push_cast [toQPt]
    ring

lemma sumXX_map_toQPt (l : List DataPt) :
    sumXX (l.map toQPt) = (sumSq (l.map DataPt.x) : ℚ) := by
  induction l with
  | nil => simp [sumXX, sumSq]
  | cons a t ih =>
    simp only [List.map_cons, sumXX, sumSq, List.sum_cons] at *
    rw [ih]
    push_cast [toQPt]
    ring

lemma detLin_map_toQPt (l : List DataPt) :
    detLin (l.map toQPt) = (intDet (l.map DataPt.x) : ℚ) := by
  rw [detLin, intDet, sumX_map_toQPt, sumXX_map_toQPt]
  push_cast
  simp

lemma linearRegression_isSome_of (l : List DataPt) (h2 : 2 ≤ l.length)
    (hne : ∃ a ∈ l, ∃ b ∈ l, a.x ≠ b.x) :
    ∃ m, linearRegression (l.map toQPt) = some m := by
  obtain ⟨a, ha, b, hb, hab⟩ := hne
  have hdet : 1 ≤ intDet (l.map DataPt.x) :=
    intDet_pos _ a.x b.x (List.mem_map_of_mem _ ha)
      (List.mem_map_of_mem _ hb) hab
  have hcast : (1 : ℚ) ≤ detLin (l.map toQPt) := by
    rw [detLin_map_toQPt]
    exact_mod_cast hdet
  simp only [linearRegression]
  rw [if_neg (by simp only [List.length_map]; omega),
    if_neg (by rw [abs_of_nonneg (by linarith)]; norm_num [eps10]; linarith)]
  exact ⟨_, rfl⟩

lemma polyRegression_isSome_of (l : List DataPt) (h2 : 2 ≤ l.length)
    (hne : ∃ a ∈ l, ∃ b ∈ l, a.x ≠ b.x) :
    ∃ m, polyRegression (l.map toQPt) = some m := by
  obtain ⟨mlin, hmlin⟩ := linearRegression_isSome_of l h2 hne
  simp only [polyRegression]
  split_ifs <;>
    first
      | (rw [hmlin]; exact ⟨_, rfl⟩)
      | exact ⟨_, rfl⟩

/-- One emitted projection point of `regressionProjection`, at grid instant
`t`: the date truncated to its UTC day, the clamped rounded fitted value, and
the forecast tag set exactly when `t` lies after the last observed date. -/
def gridPointAt (reg : RegModel) (lastTi : ℤ) (t : ℚ) : ProjPoint :=
  ⟨msToDayMs t, max 0 (jsRound (reg.evalAt t)), decide ((lastTi : ℚ) < t)⟩

/-- The regression selector of `buildDatasets`: `linearRegression` for the
linear mode and `polyRegression` for the polynomial mode. -/
def regFnOf (mode : PMode) : List QPt → Option RegModel :=
  match mode with
  | .poly => polyRegression
  | _ => fun pts => (linearRegression pts).map RegModel.ofLin

lemma range_map_getD (n : ℕ) (g : ℕ → ℚ) (k : ℕ) (hk : k < n) :
    ((List.range n).map g).getD k 0 = g k := by
  rw [List.getD_eq_getElem?_getD, List.getElem?_map, List.getElem?_range hk]
  rfl

/-- C7 (amended): with fewer than 3 points the Projection Builder returns
nothing in linear and polynomial modes; for every chronologically sorted
series of at least 3 points whose dates are not all equal, the fit succeeds
and the builder emits exactly one point per grid instant
`firstT + (projEnd - firstT) * k/40`, `k = 0..40` (40 evenly spaced steps
from the first observed date to 6 calendar months past the last observed
date), each clamped to `max(0, round(eval(t)))` and tagged as forecast
exactly when its instant is after the last observed date. -/
theorem regression_projection_grid (filtered : List DataPt) (mode : PMode)
    (hmode : mode = .linear ∨ mode = .poly) :
    (filtered.length < 3 → projBuilder mode filtered = none) ∧
    (List.Pairwise (fun a b => a.x ≤ b.x) filtered →
     3 ≤ filtered.length →
     (∃ a ∈ filtered, ∃ b ∈ filtered, a.x ≠ b.x) →
     ∃ reg, regFnOf mode (filtered.map toQPt) = some reg ∧
       projBuilder mode filtered = some
         ((projGridTimes ((filtered.headD ⟨0, 0, 0⟩).x : ℚ)
             ((addMonths6 (filtered.getLastD ⟨0, 0, 0⟩).x : ℤ) : ℚ)).map
           (gridPointAt reg (filtered.getLastD ⟨0, 0, 0⟩).x)) ∧
       ∀ f e : ℚ, (projGridTimes f e).length = 41 ∧
         ∀ k : ℕ, k < 41 →
           (projGridTimes f e).getD k 0 = f + (e - f) * ((k : ℚ) / 40)) := by
  constructor
  · intro h3
    rcases hmode with rfl | rfl <;>
      · simp only [projBuilder]
        rw [if_pos h3]
  · intro hsort h3 hne
    have hsorteq : sortByKey DataPt.x filtered = filtered :=
      sortByKey_of_sorted DataPt.x filtered hsort
    have hgrid : ∀ f e : ℚ, (projGridTimes f e).length = 41 ∧
        ∀ k : ℕ, k < 41 →
          (projGridTimes f e).getD k 0 = f + (e - f) * ((k : ℚ) / 40) := by
      intro f e
      constructor
      · simp only [projGridTimes, List.length_map, List.length_range]
      · intro k hk
        rw [projGridTimes]
        exact range_map_getD 41 _ k hk
    rcases hmode with rfl | rfl
    · obtain ⟨m, hm⟩ := linearRegression_isSome_of filtered (by omega) hne
      refine ⟨RegModel.ofLin m, ?_, ?_, hgrid⟩
      · simp only [regFnOf, hm, Option.map]
      · simp only [projBuilder, regressionProjection]
        rw [if_neg (not_lt.mpr h3), if_neg (not_lt.mpr h3), hsorteq, hm]
        rfl
    · obtain ⟨reg, hreg⟩ := polyRegression_isSome_of filtered (by omega) hne
      refine ⟨reg, hreg, ?_, hgrid⟩
      simp only [projBuilder, regressionProjection]
      rw [if_neg (not_lt.mpr h3), if_neg (not_lt.mpr h3), hsorteq, hreg]
      rfl

/-- The degenerate series of the C7 counterexample: three points on the same
date. -/
def degSeries : List DataPt := [⟨0, 450, 10⟩, ⟨0, 460, 10⟩, ⟨0, 470, 10⟩]

/-- C7 counterexample: a chronologically sorted 3-point series whose dates
coincide makes the linear fit degenerate, and the Projection Builder emits
nothing instead of the claimed 40-step grid. -/
theorem projection_degenerate_counterexample :
    3 ≤ degSeries.length ∧
    List.Pairwise (fun a b => a.x ≤ b.x) degSeries ∧
    projBuilder .linear degSeries = none := by
  refine ⟨by decide, by decide, ?_⟩
  norm_num [projBuilder, regressionProjection, degSeries, sortByKey, insKey,
    toQPt, linearRegression, detLin, sumX, sumXX, sumXY, sumY, eps10]

/-- C7 witness: the grid theorem applied to a concrete sorted 3-point series
with distinct dates. -/
theorem regression_projection_grid_witness :
    ∃ reg, regFnOf .linear
        (([⟨0, 500, 1⟩, ⟨86400000, 490, 1⟩, ⟨172800000, 480, 1⟩] :
          List DataPt).map toQPt) = some reg ∧
      projBuilder .linear
          [⟨0, 500, 1⟩, ⟨86400000, 490, 1⟩, ⟨172800000, 480, 1⟩] = some
        ((projGridTimes
            ((([⟨0, 500, 1⟩, ⟨86400000, 490, 1⟩, ⟨172800000, 480, 1⟩] :
              List DataPt).headD ⟨0, 0, 0⟩).x : ℚ)
            ((addMonths6 (([⟨0, 500, 1⟩, ⟨86400000, 490, 1⟩,
              ⟨172800000, 480, 1⟩] :
              List DataPt).getLastD ⟨0, 0, 0⟩).x : ℤ) : ℚ)).map
          (gridPointAt reg
            (([⟨0, 500, 1⟩, ⟨86400000, 490, 1⟩, ⟨172800000, 480, 1⟩] :
              List DataPt).getLastD ⟨0, 0, 0⟩).x)) ∧
      ∀ f e : ℚ, (projGridTimes f e).length = 41 ∧
        ∀ k : ℕ, k < 41 →
          (projGridTimes f e).getD k 0 = f + (e - f) * ((k : ℚ) / 40) :=
  (regression_projection_grid
    [⟨0, 500, 1⟩, ⟨86400000, 490, 1⟩, ⟨172800000, 480, 1⟩] .linear
    (Or.inl rfl)).2 (by decide) (by decide) (by decide)

end EE
